import Mathlib

/-!
Shallow embedding of the ledger core of Money_tracker.py.

Transactions are dictionaries with keys person, amount, date, purpose,
is_repayment, timestamp; the store is the Python list
st.session_state.transactions.  Amounts are modelled as rationals
(exact currency arithmetic), dates and timestamps as the strings the
program stores.  Python string operations are modelled on the
character lists: str.lower is lowerStr (ASCII case folding, which is
what the data of this program uses), and the lexicographic order on
strings used by sorted(..., key=str.lower) is charListLe on code
points, which is exactly how Python compares strings.
-/

/-- Model of Python str.lower for the ASCII names this program stores:
lowercases every character of the string. -/
def lowerStr (s : String) : String := ⟨s.data.map Char.toLower⟩

/-- Lexicographic comparison of character lists by code point, the
order Python uses on strings. -/
def charListLe : List Char → List Char → Bool
  | [], _ => true
  | _ :: _, [] => false
  | a :: as, b :: bs =>
      if a.toNat = b.toNat then charListLe as bs
      else decide (a.toNat < b.toNat)

/-- Case-insensitive string comparison: the sort key str.lower composed
with the Python string order. -/
def lowerLe (a b : String) : Bool := charListLe (lowerStr a).data (lowerStr b).data

/-- One stored transaction record (one Python dict in the transactions
list), with the six keys the program writes. -/
structure Transaction where
  person : String
  amount : ℚ
  date : String
  purpose : String
  is_repayment : Bool
  timestamp : String
deriving DecidableEq, Repr

/-- Source lines 132-136: calculate_person_balance filters the store by
case-insensitive equality on person and sums the amounts, returning the
pair of the total and the matching sub-list. -/
def calculate_person_balance (ts : List Transaction) (person_name : String) :
    ℚ × List Transaction :=
  let person_transactions :=
    ts.filter (fun t => lowerStr t.person == lowerStr person_name)
  ((person_transactions.map (fun t => t.amount)).sum, person_transactions)

/-- Source lines 138-141: get_all_persons builds list(set(...)) of the
exact person strings and sorts it with key=str.lower.  The Python set
is modelled by List.dedup (exact string equality, as in the source);
the stable sort by the lowercased key is insertionSort on lowerLe. -/
def get_all_persons (ts : List Transaction) : List String :=
  List.insertionSort (fun a b => lowerLe a b = true)
    ((ts.map (fun t => t.person)).dedup)

/-- Source line 661: sum of the positive amounts. -/
def total_given (ts : List Transaction) : ℚ :=
  ((ts.filter (fun t => t.amount > 0)).map (fun t => t.amount)).sum

/-- Source line 662: sum of abs(amount) over the negative amounts. -/
def total_borrowed (ts : List Transaction) : ℚ :=
  ((ts.filter (fun t => t.amount < 0)).map (fun t => |t.amount|)).sum

/-- Source line 663: net_position = total_given - total_borrowed. -/
def net_position (ts : List Transaction) : ℚ := total_given ts - total_borrowed ts

/-- Source line 263: net_balance is the plain sum of all amounts. -/
def net_balance (ts : List Transaction) : ℚ := (ts.map (fun t => t.amount)).sum

/-- Concrete two-transaction store used to instantiate theorems. -/
def exStoreA : List Transaction :=
  [⟨"Alice", 20, "2024-01-01", "Lunch", false, "2024-01-01 10:00:00"⟩,
   ⟨"alice", -5, "2024-01-02", "", false, "2024-01-02 10:00:00"⟩]

/-- exStoreA with its two records swapped. -/
def exStoreA' : List Transaction :=
  [⟨"alice", -5, "2024-01-02", "", false, "2024-01-02 10:00:00"⟩,
   ⟨"Alice", 20, "2024-01-01", "Lunch", false, "2024-01-01 10:00:00"⟩]

/-- C1: calculate_person_balance returns the sum of amount over exactly
the stored transactions whose person equals the queried name
case-insensitively, paired with that matching sub-collection, and the
balance is unchanged under any permutation of the store. -/
theorem calculate_person_balance_spec (ts ts' : List Transaction) (name : String)
    (hperm : ts.Perm ts') :
    (calculate_person_balance ts name).2
        = ts.filter (fun t => lowerStr t.person == lowerStr name) ∧
    (calculate_person_balance ts name).1
        = ((ts.filter (fun t => lowerStr t.person == lowerStr name)).map
            (fun t => t.amount)).sum ∧
    (calculate_person_balance ts name).1 = (calculate_person_balance ts' name).1 := by
  refine ⟨rfl, rfl, ?_⟩
  exact ((hperm.filter _).map _).sum_eq

/-- C1 witness: the two-element store, its swap, and the query Alice. -/
theorem calculate_person_balance_spec_witness :
    (calculate_person_balance exStoreA "Alice").2
        = exStoreA.filter (fun t => lowerStr t.person == lowerStr "Alice") ∧
    (calculate_person_balance exStoreA "Alice").1
        = ((exStoreA.filter (fun t => lowerStr t.person == lowerStr "Alice")).map
            (fun t => t.amount)).sum ∧
    (calculate_person_balance exStoreA "Alice").1
        = (calculate_person_balance exStoreA' "Alice").1 :=
  calculate_person_balance_spec exStoreA exStoreA' "Alice" (by decide)

/-- Unfolding total_given over a cons cell. -/
lemma total_given_cons (t : Transaction) (l : List Transaction) :
    total_given (t :: l) = (if t.amount > 0 then t.amount else 0) + total_given l := by
  by_cases h : t.amount > 0 <;>
    simp [total_given, List.filter_cons, h]

/-- Unfolding total_borrowed over a cons cell. -/
lemma total_borrowed_cons (t : Transaction) (l : List Transaction) :
    total_borrowed (t :: l)
      = (if t.amount < 0 then |t.amount| else 0) + total_borrowed l := by
  by_cases h : t.amount < 0 <;>
    simp [total_borrowed, List.filter_cons, h]

/-- Unfolding net_balance over a cons cell. -/
lemma net_balance_cons (t : Transaction) (l : List Transaction) :
    net_balance (t :: l) = t.amount + net_balance l := by
  simp [net_balance]

/-- C4: with exact rational arithmetic, total_given minus total_borrowed
equals net_position, which equals the plain sum of all amounts. -/
theorem net_position_eq_sum (ts : List Transaction) :
    total_given ts - total_borrowed ts = net_position ts ∧
    net_position ts = net_balance ts := by
  refine ⟨rfl, ?_⟩
  have key : ∀ l : List Transaction, total_given l - total_borrowed l = net_balance l := by
    intro l
    induction l with
    | nil => simp [total_given, total_borrowed, net_balance]
    | cons t l ih =>
        rw [total_given_cons, total_borrowed_cons, net_balance_cons]
        rcases lt_trichotomy t.amount 0 with h | h | h
        · rw [if_neg (by linarith), if_pos h, abs_of_neg h]
          linarith
        · rw [if_neg (by rw [h]; exact lt_irrefl 0), if_neg (by rw [h]; exact lt_irrefl 0)]
          rw [h]; linarith
        · rw [if_pos h, if_neg (by linarith)]
          linarith
  exact key ts

/-- The parsed JSON document: json.load gives a dict, and
data.get applies a default when the transactions key is missing. -/
structure StoredData where
  transactions : Option (List Transaction)

/-- Source lines 111-118: load_data.  The outer Option is whether the
data file exists (os.path.exists); the inner Option is whether opening
and parsing succeeded (the except branch swallows any failure and
leaves the session state as it was, which at startup is the empty
list). -/
def load_data (file : Option (Option StoredData)) (prior : List Transaction) :
    List Transaction :=
  match file with
  | none => prior
  | some none => prior
  | some (some d) => d.transactions.getD []

/-- C8: at startup (prior state empty), load_data returns the empty
collection when the file is absent or unreadable, never reporting an
error (its result type carries no error case), and otherwise returns
exactly the transaction records stored in the document. -/
theorem load_data_lenient :
    load_data none [] = [] ∧
    load_data (some none) [] = [] ∧
    (∀ d : StoredData, ∀ prior : List Transaction,
      load_data (some (some d)) prior = d.transactions.getD []) ∧
    (∀ ts prior : List Transaction,
      load_data (some (some ⟨some ts⟩)) prior = ts) := by
  exact ⟨rfl, rfl, fun d prior => rfl, fun ts prior => rfl⟩

/-- Source lines 527-534: the delete button walks the list, pops the
first transaction whose timestamp equals the selected one and breaks;
if none matches, nothing is removed and no error is raised. -/
def del_trans : List Transaction → String → List Transaction
  | [], _ => []
  | t :: rest, x => if t.timestamp == x then rest else t :: del_trans rest x

/-- del_trans leaves a store with no matching timestamp unchanged. -/
lemma del_trans_noop (ts : List Transaction) (x : String)
    (h : ∀ u ∈ ts, (u.timestamp == x) = false) : del_trans ts x = ts := by
  induction ts with
  | nil => rfl
  | cons t rest ih =>
      have ht := h t (List.mem_cons_self t rest)
      simp only [del_trans, ht, Bool.false_eq_true, if_false]
      rw [ih (fun u hu => h u (List.mem_cons_of_mem t hu))]

/-- C10: when the store is pre ++ t :: post with no match in pre and t
matching, deletion removes exactly t: everything before it, everything
after it (matching or not), and all non-matching records survive in
order. -/
theorem del_trans_removes_first (pre post : List Transaction) (t : Transaction)
    (x : String) (hpre : ∀ u ∈ pre, (u.timestamp == x) = false)
    (ht : (t.timestamp == x) = true) :
    del_trans (pre ++ t :: post) x = pre ++ post := by
  induction pre with
  | nil => simp [del_trans, ht]
  | cons u pre ih =>
      have hu := hpre u (List.mem_cons_self u pre)
      simp only [List.cons_append, del_trans, hu, Bool.false_eq_true, if_false]
      exact congrArg (fun l => u :: l)
        (ih (fun v hv => hpre v (List.mem_cons_of_mem u hv)))

/-- Store with two records sharing one timestamp, the second holding
further data after it. -/
def exDupStore : List Transaction :=
  [⟨"Carl", 7, "2024-02-01", "", false, "2024-02-01 12:00:00"⟩,
   ⟨"Dana", 3, "2024-02-01", "", false, "2024-02-03 12:00:00"⟩,
   ⟨"Dana", 4, "2024-02-01", "", true, "2024-02-03 12:00:00"⟩]

/-- C10 witness: deleting the duplicated timestamp from exDupStore
removes only the first of the two matching records. -/
theorem del_trans_removes_first_witness :
    del_trans exDupStore "2024-02-03 12:00:00"
      = [⟨"Carl", 7, "2024-02-01", "", false, "2024-02-01 12:00:00"⟩,
         ⟨"Dana", 4, "2024-02-01", "", true, "2024-02-03 12:00:00"⟩] :=
  del_trans_removes_first
    [⟨"Carl", 7, "2024-02-01", "", false, "2024-02-01 12:00:00"⟩]
    [⟨"Dana", 4, "2024-02-01", "", true, "2024-02-03 12:00:00"⟩]
    ⟨"Dana", 3, "2024-02-01", "", false, "2024-02-03 12:00:00"⟩
    "2024-02-03 12:00:00" (by decide) (by decide)

/-- C5 counterexample: on a store holding two records with the same
timestamp, deleting that timestamp twice is not the same as deleting
it once, so the delete operation is not idempotent on every store. -/
theorem del_trans_not_idempotent_cex :
    del_trans (del_trans exDupStore "2024-02-03 12:00:00") "2024-02-03 12:00:00"
      ≠ del_trans exDupStore "2024-02-03 12:00:00" := by decide

/-- C5 amended: on every store in which at most one transaction
carries the identity x (the documented key-uniqueness discipline),
deleting x twice equals deleting it once, and when no transaction
carries x the store is returned unchanged with no error. -/
theorem del_trans_idempotent (ts : List Transaction) (x : String)
    (huniq : ts.countP (fun t => t.timestamp == x) ≤ 1) :
    del_trans (del_trans ts x) x = del_trans ts x ∧
    ((∀ u ∈ ts, (u.timestamp == x) = false) → del_trans ts x = ts) := by
  refine ⟨?_, del_trans_noop ts x⟩
  induction ts with
  | nil => rfl
  | cons t rest ih =>
      by_cases h : (t.timestamp == x) = true
      · simp only [del_trans, h, if_true]
        have hcount : rest.countP (fun t => t.timestamp == x) = 0 := by
          rw [List.countP_cons] at huniq
          simp only [h, if_true] at huniq
          omega
        have hall := List.countP_eq_zero.mp hcount
        exact del_trans_noop rest x
          (by
            intro u hu
            have hnu := hall u hu
            revert hnu
            cases (u.timestamp == x) <;> simp)
      · have hfalse : (t.timestamp == x) = false := by
          revert h
          cases (t.timestamp == x) <;> simp
        simp only [del_trans, hfalse, Bool.false_eq_true, if_false]
        have hrest : rest.countP (fun t => t.timestamp == x) ≤ 1 := by
          rw [List.countP_cons] at huniq
          simp only [hfalse] at huniq
          omega
        exact congrArg (fun l => t :: l) (ih hrest)

/-- C5 witness: on a store whose two records carry distinct
timestamps, deleting one timestamp twice equals deleting it once, and
deleting an absent timestamp is a silent no-op. -/
theorem del_trans_idempotent_witness :
    (del_trans (del_trans exStoreA "2024-01-01 10:00:00") "2024-01-01 10:00:00"
      = del_trans exStoreA "2024-01-01 10:00:00") ∧
    ((∀ u ∈ exStoreA, (u.timestamp == "2099-01-01 00:00:00") = false) →
      del_trans exStoreA "2099-01-01 00:00:00" = exStoreA) :=
  ⟨(del_trans_idempotent exStoreA "2024-01-01 10:00:00" (by decide)).1,
   (del_trans_idempotent exStoreA "2099-01-01 00:00:00" (by decide)).2⟩

/-- Source lines 439-451: the Mark as Settled handler.  It is guarded
by balance != 0 (the button is only offered then); when the balance is
nonzero it appends one transaction negating the balance, dated today,
with purpose Full settlement and the repayment flag set.  today and
now stand for date.today() and datetime.now() of the handler run. -/
def settle_person (today now : String) (ts : List Transaction) (person : String) :
    List Transaction :=
  let balance := (calculate_person_balance ts person).1
  if balance ≠ 0 then
    ts ++ [⟨person, -balance, today, "Full settlement", true, now⟩]
  else ts

/-- The balance of a concatenation is the sum of the balances. -/
lemma calculate_person_balance_append (ts l : List Transaction) (P : String) :
    (calculate_person_balance (ts ++ l) P).1
      = (calculate_person_balance ts P).1 + (calculate_person_balance l P).1 := by
  simp [calculate_person_balance, List.filter_append]

/-- The balance of a singleton whose person is the queried name. -/
lemma calculate_person_balance_single (t : Transaction) (P : String)
    (h : lowerStr t.person = lowerStr P) :
    (calculate_person_balance [t] P).1 = t.amount := by
  have hb : (lowerStr t.person == lowerStr P) = true := by
    rw [h]; exact beq_self_eq_true _
  show ((List.filter (fun t => lowerStr t.person == lowerStr P) [t]).map
      (fun t => t.amount)).sum = t.amount
  simp [List.filter_cons, hb]

/-- C3: settle_person with zero balance returns the store unchanged;
with nonzero balance b it appends exactly one transaction with amount
-b, date today, purpose Full settlement and the repayment flag, and
the balance of the resulting store for that person is zero. -/
theorem settle_person_spec (today now : String) (ts : List Transaction) (P : String) :
    ((calculate_person_balance ts P).1 = 0 → settle_person today now ts P = ts) ∧
    ((calculate_person_balance ts P).1 ≠ 0 →
      settle_person today now ts P
        = ts ++ [⟨P, -(calculate_person_balance ts P).1, today,
            "Full settlement", true, now⟩] ∧
      (calculate_person_balance (settle_person today now ts P) P).1 = 0) := by
  constructor
  · intro h
    simp [settle_person, h]
  · intro h
    have heq : settle_person today now ts P
        = ts ++ [⟨P, -(calculate_person_balance ts P).1, today,
            "Full settlement", true, now⟩] := by
      simp [settle_person, h]
    refine ⟨heq, ?_⟩
    rw [heq, calculate_person_balance_append,
      calculate_person_balance_single _ P rfl]
    ring

/-- C3 witness: settling Alice on the two-record store zeroes the
Alice balance and appends the negating settlement record. -/
theorem settle_person_spec_witness :
    settle_person "2024-01-03" "2024-01-03 09:00:00" exStoreA "Alice"
      = exStoreA ++ [⟨"Alice", -(calculate_person_balance exStoreA "Alice").1,
          "2024-01-03", "Full settlement", true, "2024-01-03 09:00:00"⟩] ∧
    (calculate_person_balance
        (settle_person "2024-01-03" "2024-01-03 09:00:00" exStoreA "Alice")
        "Alice").1 = 0 :=
  (settle_person_spec "2024-01-03" "2024-01-03 09:00:00" exStoreA "Alice").2
    (by
      have hf : exStoreA.filter (fun t => lowerStr t.person == lowerStr "Alice")
          = exStoreA := by decide
      show ((exStoreA.filter (fun t => lowerStr t.person == lowerStr "Alice")).map
          (fun t => t.amount)).sum ≠ 0
      rw [hf]
      norm_num [exStoreA])

/-- Source lines 232-254: the transaction form submit handler.  It
validates person_name truthy and amount > 0, signs the amount by the
chosen transaction type, appends one record and reports success, and
otherwise shows the generic error text and changes nothing.  The date
widget, not this handler, is what constrains the entered date. -/
def transaction_form_submit (ts : List Transaction) (person_name : String)
    (gave : Bool) (amount : ℚ) (transaction_date purpose : String)
    (is_rep : Bool) (now : String) : Except String (List Transaction) :=
  if person_name ≠ "" ∧ amount > 0 then
    Except.ok (ts ++ [⟨person_name, if gave then amount else -amount,
      transaction_date, purpose, is_rep, now⟩])
  else Except.error "Please fill in all required fields!"

/-- Whether the first character list begins the second. -/
def leadMatch : List Char → List Char → Bool
  | [], _ => true
  | _ :: _, [] => false
  | a :: n, b :: h => a == b && leadMatch n h

/-- Whether the first character list occurs contiguously in the second. -/
def occursIn (n : List Char) : List Char → Bool
  | [] => leadMatch n []
  | l@(_ :: t) => leadMatch n l || occursIn n t

/-- C7 counterexample: with amount 0 the handler fails, but with the
generic text Please fill in all required fields!, which names neither
the amount field nor the person field; and an input whose date
2999-12-31 is far beyond the day of the run (here 2024-06-01) is
accepted and appended, so no date precondition is checked by the
handler. -/
theorem transaction_form_submit_cex :
    (transaction_form_submit [] "Alice" true 0 "2024-01-01" "" false
        "2024-01-01 09:00:00"
      = Except.error "Please fill in all required fields!" ∧
     occursIn "amount".data (lowerStr "Please fill in all required fields!").data
        = false ∧
     occursIn "person".data (lowerStr "Please fill in all required fields!").data
        = false) ∧
    (charListLe "2999-12-31".data "2024-06-01".data = false ∧
     transaction_form_submit [] "Alice" true 5 "2999-12-31" "" false
        "2999-12-31 09:00:00"
      = Except.ok [⟨"Alice", 5, "2999-12-31", "", false, "2999-12-31 09:00:00"⟩]) := by
  refine ⟨⟨?_, by decide, by decide⟩, by decide, ?_⟩
  · rw [transaction_form_submit, if_neg]
    intro h
    exact absurd h.2 (by norm_num)
  · rw [transaction_form_submit, if_pos ⟨by decide, by norm_num⟩]
    rfl

/-- C7 amended: the handler requires person_name non-empty and entered
amount strictly positive; on violation it fails with the generic
required-fields error and the store is unchanged, and on success it
appends exactly one transaction carrying the given fields with the
amount signed by the transaction type. -/
theorem transaction_form_submit_spec (ts : List Transaction) (p : String)
    (gave : Bool) (a : ℚ) (d pur : String) (r : Bool) (now : String) :
    (¬ (p ≠ "" ∧ a > 0) →
      transaction_form_submit ts p gave a d pur r now
        = Except.error "Please fill in all required fields!") ∧
    ((p ≠ "" ∧ a > 0) →
      transaction_form_submit ts p gave a d pur r now
        = Except.ok (ts ++ [⟨p, if gave then a else -a, d, pur, r, now⟩])) := by
  constructor
  · intro h
    rw [transaction_form_submit, if_neg h]
  · intro h
    rw [transaction_form_submit, if_pos h]

/-- C7 witness: the empty person name is rejected with the generic
error, and a valid submission for Bob appends the one signed record. -/
theorem transaction_form_submit_spec_witness :
    (transaction_form_submit [] "" true 5 "2024-01-01" "" false "2024-01-01 08:00:00"
      = Except.error "Please fill in all required fields!") ∧
    (transaction_form_submit [] "Bob" true 5 "2024-01-01" "" false "2024-01-01 08:00:00"
      = Except.ok [⟨"Bob", 5, "2024-01-01", "", false, "2024-01-01 08:00:00"⟩]) :=
  ⟨(transaction_form_submit_spec [] "" true 5 "2024-01-01" "" false
      "2024-01-01 08:00:00").1 (by simp),
   by
    simpa using (transaction_form_submit_spec [] "Bob" true 5 "2024-01-01" "" false
      "2024-01-01 08:00:00").2 ⟨by decide, by norm_num⟩⟩

/-- The code-point order on character lists is total. -/
lemma charListLe_total : ∀ as bs : List Char,
    charListLe as bs = true ∨ charListLe bs as = true := by
  intro as
  induction as with
  | nil => intro bs; left; rfl
  | cons a as ih =>
      intro bs
      cases bs with
      | nil => right; rfl
      | cons b bs =>
          by_cases h : a.toNat = b.toNat
          · rcases ih bs with hl | hr
            · left
              show charListLe (a :: as) (b :: bs) = true
              simp only [charListLe]
              rw [if_pos h]; exact hl
            · right
              show charListLe (b :: bs) (a :: as) = true
              simp only [charListLe]
              rw [if_pos h.symm]; exact hr
          · rcases Nat.lt_or_ge a.toNat b.toNat with hlt | hge
            · left
              show charListLe (a :: as) (b :: bs) = true
              simp only [charListLe]
              rw [if_neg h]; simpa using hlt
            · right
              show charListLe (b :: bs) (a :: as) = true
              simp only [charListLe]
              rw [if_neg (by omega)]
              simpa using (by omega : b.toNat < a.toNat)

/-- The code-point order on character lists is transitive. -/
lemma charListLe_trans : ∀ as bs cs : List Char,
    charListLe as bs = true → charListLe bs cs = true → charListLe as cs = true := by
  intro as
  induction as with
  | nil => intro bs cs _ _; rfl
  | cons a as ih =>
      intro bs cs hab hbc
      cases bs with
      | nil => simp [charListLe] at hab
      | cons b bs =>
          cases cs with
          | nil => simp [charListLe] at hbc
          | cons c cs =>
              simp only [charListLe] at hab hbc
              by_cases h1 : a.toNat = b.toNat <;> by_cases h2 : b.toNat = c.toNat
              · rw [if_pos h1] at hab
                rw [if_pos h2] at hbc
                show charListLe (a :: as) (c :: cs) = true
                simp only [charListLe]
                rw [if_pos (h1.trans h2)]
                exact ih bs cs hab hbc
              · rw [if_neg h2] at hbc
                have hlt : b.toNat < c.toNat := by simpa using hbc
                show charListLe (a :: as) (c :: cs) = true
                simp only [charListLe]
                rw [if_neg (by omega)]
                simpa using (by omega : a.toNat < c.toNat)
              · rw [if_neg h1] at hab
                have hlt : a.toNat < b.toNat := by simpa using hab
                show charListLe (a :: as) (c :: cs) = true
                simp only [charListLe]
                rw [if_neg (by omega)]
                simpa using (by omega : a.toNat < c.toNat)
              · rw [if_neg h1] at hab
                rw [if_neg h2] at hbc
                have hlt1 : a.toNat < b.toNat := by simpa using hab
                have hlt2 : b.toNat < c.toNat := by simpa using hbc
                show charListLe (a :: as) (c :: cs) = true
                simp only [charListLe]
                rw [if_neg (by omega)]
                simpa using (by omega : a.toNat < c.toNat)

instance : IsTotal String (fun a b => lowerLe a b = true) :=
  ⟨fun a b => charListLe_total (lowerStr a).data (lowerStr b).data⟩

instance : IsTrans String (fun a b => lowerLe a b = true) :=
  ⟨fun a b c => charListLe_trans (lowerStr a).data (lowerStr b).data (lowerStr c).data⟩

/-- C2 counterexample: after one transaction for Alice and one for
alice, get_all_persons keeps both spellings (the set de-duplicates by
exact string equality), so the result has two entries and is not the
single-element list containing Alice. -/
theorem get_all_persons_case_sensitive_cex :
    (get_all_persons exStoreA).length = 2 ∧
    get_all_persons exStoreA ≠ ["Alice"] := by
  decide

/-- C2 amended: get_all_persons lists exactly the distinct person
strings of the store, de-duplicated by exact (case-sensitive) string
equality and sorted by the case-insensitive order on names; names
differing only in case remain separate entries, so after recording one
transaction for Alice and one for alice both spellings are listed. -/
theorem get_all_persons_spec (ts : List Transaction) :
    (∀ n, n ∈ get_all_persons ts ↔ n ∈ ts.map (fun t => t.person)) ∧
    (get_all_persons ts).Nodup ∧
    List.Pairwise (fun a b => lowerLe a b = true) (get_all_persons ts) ∧
    ("Alice" ∈ get_all_persons exStoreA ∧ "alice" ∈ get_all_persons exStoreA ∧
      (get_all_persons exStoreA).length = 2) := by
  refine ⟨?_, ?_, ?_, by decide, by decide, by decide⟩
  · intro n
    rw [get_all_persons,
      (List.perm_insertionSort (fun a b => lowerLe a b = true) _).mem_iff,
      List.mem_dedup]
  · rw [get_all_persons,
      (List.perm_insertionSort (fun a b => lowerLe a b = true) _).nodup_iff]
    exact List.nodup_dedup _
  · exact List.sorted_insertionSort (fun a b => lowerLe a b = true) _

/-- Source lines 705-707: the most-active computation is Python max
over get_all_persons with key the number of transactions whose person
equals the candidate exactly; max keeps the earlier candidate on equal
keys.  None models the guard that skips the computation when there are
no persons. -/
def most_active (ts : List Transaction) : Option String :=
  match get_all_persons ts with
  | [] => none
  | h :: rest =>
      some (rest.foldl (fun cur p =>
        if (ts.filter (fun t => t.person == p)).length
            > (ts.filter (fun t => t.person == cur)).length then p else cur) h)

/-- The number of transactions of a person under the case-insensitive
grouping that the specification describes (stated for comparison with
the exact-match count the code uses). -/
def ci_count (ts : List Transaction) (name : String) : Nat :=
  (ts.filter (fun t => lowerStr t.person == lowerStr name)).length

/-- Python max keeps the first maximum: the fold result is the start
value or a list element, dominates the start value, and dominates
every list element. -/
lemma foldl_max_spec (k : String → Nat) :
    ∀ (l : List String) (c : String),
      (l.foldl (fun cur p => if k p > k cur then p else cur) c = c ∨
        l.foldl (fun cur p => if k p > k cur then p else cur) c ∈ l) ∧
      k c ≤ k (l.foldl (fun cur p => if k p > k cur then p else cur) c) ∧
      ∀ q ∈ l, k q ≤ k (l.foldl (fun cur p => if k p > k cur then p else cur) c) := by
  intro l
  induction l with
  | nil => exact fun c => ⟨Or.inl rfl, le_refl _, fun q hq => absurd hq (List.not_mem_nil q)⟩
  | cons p l ih =>
      intro c
      have step : List.foldl (fun cur p => if k p > k cur then p else cur) c (p :: l)
          = List.foldl (fun cur p => if k p > k cur then p else cur)
              (if k p > k c then p else c) l := rfl
      obtain ⟨hmem, hle, hall⟩ := ih (if k p > k c then p else c)
      refine ⟨?_, ?_, ?_⟩
      · rw [step]
        rcases hmem with hm | hm
        · by_cases hpc : k p > k c
          · right; rw [hm, if_pos hpc]; exact List.mem_cons_self p l
          · left; rw [hm, if_neg hpc]
        · right; exact List.mem_cons_of_mem p hm
      · rw [step]
        refine le_trans ?_ hle
        by_cases hpc : k p > k c
        · rw [if_pos hpc]; omega
        · rw [if_neg hpc]
      · intro q hq
        rw [step]
        rcases List.mem_cons.mp hq with hqp | hql
        · rw [hqp]
          refine le_trans ?_ hle
          by_cases hpc : k p > k c
          · rw [if_pos hpc]
          · rw [if_neg hpc]; omega
        · exact hall q hql

/-- Python max keeps the first maximum, stated as a decomposition: the
candidate list c :: l splits around the fold result, and every entry
strictly before the result carries a strictly smaller key. -/
lemma foldl_first_max (k : String → Nat) :
    ∀ (l : List String) (c : String),
      ∃ l1 l2,
        c :: l
          = l1 ++ (l.foldl (fun cur p => if k p > k cur then p else cur) c) :: l2 ∧
        ∀ q ∈ l1, k q < k (l.foldl (fun cur p => if k p > k cur then p else cur) c) := by
  intro l
  induction l with
  | nil => exact fun c => ⟨[], [], rfl, by simp⟩
  | cons p l ih =>
      intro c
      have step : List.foldl (fun cur p => if k p > k cur then p else cur) c (p :: l)
          = List.foldl (fun cur p => if k p > k cur then p else cur)
              (if k p > k c then p else c) l := rfl
      obtain ⟨l1', l2', hdec, hstrict⟩ := ih (if k p > k c then p else c)
      have hle := (foldl_max_spec k l (if k p > k c then p else c)).2.1
      by_cases hpc : k p > k c
      · rw [if_pos hpc] at hdec hstrict hle
        refine ⟨c :: l1', l2', ?_, ?_⟩
        · rw [step, if_pos hpc, List.cons_append, ← hdec]
        · intro q hq
          rw [step, if_pos hpc]
          rcases List.mem_cons.mp hq with hqc | hql
          · rw [hqc]; omega
          · exact hstrict q hql
      · rw [if_neg hpc] at hdec hstrict hle
        cases l1' with
        | nil =>
            rw [List.nil_append] at hdec
            injection hdec with h1 h2
            refine ⟨[], p :: l2', ?_, by simp⟩
            rw [step, if_neg hpc, List.nil_append, ← h1, ← h2]
        | cons c'' l1'' =>
            rw [List.cons_append] at hdec
            injection hdec with h1 h2
            have hcr := hstrict c'' (List.mem_cons_self c'' l1'')
            rw [← h1] at hcr
            refine ⟨c :: p :: l1'', l2', ?_, ?_⟩
            · rw [step, if_neg hpc, List.cons_append, List.cons_append, ← h2]
            · intro q hq
              rw [step, if_neg hpc]
              rcases List.mem_cons.mp hq with hqc | hq2
              · rw [hqc]; exact hcr
              · rcases List.mem_cons.mp hq2 with hqp | hql
                · rw [hqp]; omega
                · exact hstrict q (List.mem_cons_of_mem c'' hql)

/-- Store with two Alice records and three records spelling bob three
different ways, so the case-insensitive group of bob is strictly
larger than any exact spelling group. -/
def exStoreB : List Transaction :=
  [⟨"Alice", 10, "2024-03-01", "", false, "2024-03-01 08:00:00"⟩,
   ⟨"Alice", 10, "2024-03-02", "", false, "2024-03-02 08:00:00"⟩,
   ⟨"bob", 1, "2024-03-03", "", false, "2024-03-03 08:00:00"⟩,
   ⟨"Bob", 2, "2024-03-04", "", false, "2024-03-04 08:00:00"⟩,
   ⟨"BOB", 3, "2024-03-05", "", false, "2024-03-05 08:00:00"⟩]

/-- C6 counterexample: persons are not grouped case-insensitively.  In
exStoreB the case-insensitive bob group has three transactions while
Alice has two, yet most_active returns Alice, because the code counts
by exact string equality (each bob spelling counts one). -/
theorem most_active_cex :
    most_active exStoreB = some "Alice" ∧
    ci_count exStoreB "Alice" = 2 ∧
    ci_count exStoreB "bob" = 3 ∧
    "bob" ∈ get_all_persons exStoreB := by
  refine ⟨by decide, by decide, by decide, by decide⟩

/-- Store for scenario E: two transactions for Bob and one for alice. -/
def exStoreE : List Transaction :=
  [⟨"Bob", 10, "2024-04-01", "", false, "2024-04-01 08:00:00"⟩,
   ⟨"alice", 4, "2024-04-02", "", false, "2024-04-02 08:00:00"⟩,
   ⟨"Bob", -3, "2024-04-03", "", false, "2024-04-03 08:00:00"⟩]

/-- C6 amended: whenever most_active returns a person, that person is
one of the listed distinct names, its exact-match transaction count is
maximal among them, and it is the earliest entry of the
case-insensitively sorted person list achieving that count: the list
splits around the returned person with every earlier entry carrying a
strictly smaller count, which is the keep-first tie-break of Python
max. -/
theorem most_active_spec (ts : List Transaction) (p : String)
    (h : most_active ts = some p) :
    p ∈ get_all_persons ts ∧
    (∀ q ∈ get_all_persons ts,
      (ts.filter (fun t => t.person == q)).length
        ≤ (ts.filter (fun t => t.person == p)).length) ∧
    ∃ l1 l2, get_all_persons ts = l1 ++ p :: l2 ∧
      ∀ q ∈ l1, (ts.filter (fun t => t.person == q)).length
        < (ts.filter (fun t => t.person == p)).length := by
  revert h
  rw [most_active]
  cases hg : get_all_persons ts with
  | nil => intro h; exact absurd h (by simp)
  | cons hd rest =>
      intro h
      have hp : rest.foldl (fun cur p =>
          if (ts.filter (fun t => t.person == p)).length
              > (ts.filter (fun t => t.person == cur)).length then p else cur) hd = p := by
        injection h
      obtain ⟨hmem, hle, hall⟩ :=
        foldl_max_spec (fun q => (ts.filter (fun t => t.person == q)).length) rest hd
      obtain ⟨l1, l2, hdec, hstrict⟩ :=
        foldl_first_max (fun q => (ts.filter (fun t => t.person == q)).length) rest hd
      rw [hp] at hmem hle hall hdec hstrict
      refine ⟨?_, ?_, l1, l2, hdec, hstrict⟩
      · rcases hmem with hm | hm
        · rw [hm]; exact List.mem_cons_self hd rest
        · exact List.mem_cons_of_mem hd hm
      · intro q hq
        rcases List.mem_cons.mp hq with hqh | hqr
        · rw [hqh]; exact hle
        · exact hall q hqr

/-- C6 witness (scenario E): with two transactions for Bob and one for
alice, most_active returns Bob, which is listed, has the maximal
count, and is preceded in the sorted person list only by the
strictly-less-active alice. -/
theorem most_active_spec_witness :
    most_active exStoreE = some "Bob" ∧
    ("Bob" ∈ get_all_persons exStoreE ∧
     (∀ q ∈ get_all_persons exStoreE,
       (exStoreE.filter (fun t => t.person == q)).length
         ≤ (exStoreE.filter (fun t => t.person == "Bob")).length) ∧
     ∃ l1 l2, get_all_persons exStoreE = l1 ++ "Bob" :: l2 ∧
       ∀ q ∈ l1, (exStoreE.filter (fun t => t.person == q)).length
         < (exStoreE.filter (fun t => t.person == "Bob")).length) :=
  ⟨by decide, most_active_spec exStoreE "Bob" (by decide)⟩

/-- The store states reachable by the mutating commands of the
program: the empty startup store, a successful transaction form
submission, the delete button, and the settle button (offered for a
listed person). -/
inductive Reachable : List Transaction → Prop where
  | init : Reachable []
  | record {ts ts' : List Transaction} {p : String} {g : Bool} {a : ℚ}
      {d pu : String} {r : Bool} {now : String} :
      Reachable ts →
      transaction_form_submit ts p g a d pu r now = Except.ok ts' →
      Reachable ts'
  | delete {ts : List Transaction} {x : String} :
      Reachable ts → Reachable (del_trans ts x)
  | settle {ts : List Transaction} {today now person : String} :
      Reachable ts → person ∈ get_all_persons ts →
      Reachable (settle_person today now ts person)

/-- A reachable store with a duplicated timestamp: both records were
stamped within the same clock second. -/
def dupTimestampStore : List Transaction :=
  [⟨"Alice", 20, "2024-01-01", "Lunch", false, "2024-01-01 12:00:00"⟩,
   ⟨"Bob", 5, "2024-01-01", "", false, "2024-01-01 12:00:00"⟩]

/-- C9: the claimed uniqueness of recordedAt fails on the code.  Two
record commands run within the same clock second receive the same
datetime.now string at second resolution, and nothing checks it, so a
reachable store holds two distinct transactions with equal recordedAt
values. -/
theorem recordedAt_not_unique :
    Reachable dupTimestampStore ∧
    ¬ (dupTimestampStore.map (fun t => t.timestamp)).Nodup ∧
    dupTimestampStore.get ⟨0, by decide⟩ ≠ dupTimestampStore.get ⟨1, by decide⟩ := by
  refine ⟨?_, by decide, by decide⟩
  have h1 : transaction_form_submit [] "Alice" true 20 "2024-01-01" "Lunch" false
      "2024-01-01 12:00:00"
      = Except.ok [⟨"Alice", 20, "2024-01-01", "Lunch", false, "2024-01-01 12:00:00"⟩] := by
    rw [transaction_form_submit, if_pos ⟨by decide, by norm_num⟩]
    rfl
  have h2 : transaction_form_submit
      [⟨"Alice", 20, "2024-01-01", "Lunch", false, "2024-01-01 12:00:00"⟩]
      "Bob" true 5 "2024-01-01" "" false "2024-01-01 12:00:00"
      = Except.ok dupTimestampStore := by
    rw [transaction_form_submit, if_pos ⟨by decide, by norm_num⟩]
    rfl
  exact Reachable.record (Reachable.record Reachable.init h1) h2
